import Mathlib

/-!
Verification of the SwedishTranslator server code (src/server/routes.ts,
src/shared/schema.ts and the sibling revisions in src/unnamed/part_002).

The TypeScript source is shallowly embedded: each relevant function of the
server is translated into an executable Lean definition, and the claims about
the program are proved (or refuted) as theorems about those definitions.
JavaScript numbers that hold small non-negative integers are modelled as Nat;
the one place the arithmetic leaves the integers — the percentage target
`Math.floor(x * (pct / 100))` of the two node selectors — is modelled
bit-exactly by an IEEE-754 binary64 rounding model (`jsFloorMulDiv100`),
because its double rounding is observable: `Math.floor(100 * (57 / 100))`
is 56, not 57.  Strings are Lean String; the
unseeded `Math.random()` draws are modelled as explicitly passed streams or
predicates, so every theorem quantifies over all possible draws.
-/

/-! ## Request schema validation (src/shared/schema.ts, lines 25-29)

`webpageSchema` is a zod object: `url` must be a string accepted by
`z.string().url()` (which merely requires `new URL(value)` not to throw),
`translationPercentage` a number between 0 and 100, `language` a string.
A raw request body is modelled with `Option` fields: `none` stands for a
field that is missing or not of the required primitive type. -/

structure RawBody where
  url : Option String
  translationPercentage : Option Int
  language : Option String
deriving DecidableEq

structure ValidRequest where
  url : String
  translationPercentage : Int
  language : String
deriving DecidableEq

/-- Tail of a URL scheme: alphanumeric or `+` `-` `.` characters terminated by
a colon.  Used to model `new URL` constructibility. -/
def schemeTail : List Char → Bool
  | [] => false
  | c :: cs => if c = ':' then true else ((c.isAlphanum || c = '+' || c = '-' || c = '.') && schemeTail cs)

/-- Models the test `z.string().url()` performs, i.e. whether `new URL(s)`
succeeds.  `new URL` accepts any input that begins with a valid scheme
(a letter followed by alphanumeric, `+`, `-` or `.` characters and a colon);
the model checks exactly that scheme prefix.  A string such as `"notaurl"`,
with no colon at all, is rejected both by `new URL` and by this model. -/
def urlParseable (s : String) : Bool :=
  match s.data with
  | [] => false
  | c :: cs => c.isAlpha && schemeTail cs

/-- Embeds `webpageSchema.safeParse` (src/shared/schema.ts lines 25-29):
the body parses iff `url` is present and URL-shaped, `translationPercentage`
is present and within 0..100, and `language` is present. -/
def validateBody (b : RawBody) : Option ValidRequest :=
  match b.url with
  | none => none
  | some u =>
    if urlParseable u then
      match b.translationPercentage with
      | none => none
      | some p =>
        if 0 ≤ p ∧ p ≤ 100 then
          match b.language with
          | none => none
          | some lang => some ⟨u, p, lang⟩
        else none
    else none

/-! ## The POST /translate handler skeleton (src/server/routes.ts, lines 313-537)

The handler first runs `webpageSchema.safeParse` and returns 400 on failure;
only on success does it call `axios.get`.  The fetch outcome is a parameter
of the model; the second component of the result counts how many fetch calls
the handler performed. -/

inductive FetchOutcome where
  | ok : FetchOutcome
  | httpErr : Nat → FetchOutcome
  | netErr : FetchOutcome
deriving DecidableEq

structure TranslateResponse where
  status : Nat
  testUrls : List String
deriving DecidableEq

/-- The three known-good fallback URLs offered on an upstream 403
(src/server/routes.ts lines 524-528). -/
def fallbackUrls : List String :=
  ["https://example.com", "https://www.w3.org/", "https://www.webscraper.io/test-sites/e-commerce/allinone"]

/-- Embeds the control flow of the `POST /api/translate` handler
(src/server/routes.ts lines 313-537): validate, then fetch, then map the
fetch outcome; an upstream HTTP 403 yields status 403 with `fallbackUrls`,
any other failure yields 500, and validation failure yields 400 with no
fetch performed.  The returned Nat counts `axios.get` calls. -/
def handleTranslate (b : RawBody) (f : FetchOutcome) : TranslateResponse × Nat :=
  match validateBody b with
  | none => (⟨400, []⟩, 0)
  | some _ =>
    match f with
    | .ok => (⟨200, []⟩, 1)
    | .httpErr st => if st = 403 then (⟨403, fallbackUrls⟩, 1) else (⟨500, []⟩, 1)
    | .netErr => (⟨500, []⟩, 1)

/-! ## Vocabulary aggregation (src/server/routes.ts, lines 488-491)

`Array.from(new Map(allWordPairs.map(item => [item.original, item])).values())`:
a JavaScript `Map` built from key/value pairs keeps, for every key, the value
of the LAST insertion, at the position of the FIRST insertion of that key.
`mapInsert` embeds `Map.prototype.set` on an association list and
`dedupByOriginal` the whole expression. -/

structure WordPair where
  original : String
  translated : String
deriving DecidableEq

/-- `Map.prototype.set`: overwrite in place if the key is present, else
append at the end. -/
def mapInsert (m : List (String × WordPair)) (k : String) (v : WordPair) :
    List (String × WordPair) :=
  match m with
  | [] => [(k, v)]
  | (k', v') :: rest => if k' = k then (k', v) :: rest else (k', v') :: mapInsert rest k v

/-- Association-list lookup, i.e. `Map.prototype.get`. -/
def assocFind (m : List (String × WordPair)) (k : String) : Option WordPair :=
  match m with
  | [] => none
  | (k', v) :: rest => if k' = k then some v else assocFind rest k

/-- Embeds `Array.from(new Map(pairs.map(p => [p.original, p])).values())`
(src/server/routes.ts lines 489-491). -/
def dedupByOriginal (ps : List WordPair) : List WordPair :=
  (ps.foldl (fun m p => mapInsert m p.original p) []).map (fun e => e.2)

lemma keys_mapInsert_subset (k k' : String) (v : WordPair) :
    ∀ (m : List (String × WordPair)), k' ∈ (mapInsert m k v).map Prod.fst →
      k' = k ∨ k' ∈ m.map Prod.fst := by
  intro m
  induction m with
  | nil =>
    intro h
    simp [mapInsert] at h
    exact Or.inl h
  | cons e rest ih =>
    obtain ⟨ek, ev⟩ := e
    intro h
    by_cases hek : ek = k
    · simp only [mapInsert, if_pos hek, List.map_cons, List.mem_cons] at h
      rcases h with h1 | h1
      · exact Or.inl (h1.trans hek)
      · exact Or.inr (List.mem_cons_of_mem _ h1)
    · simp only [mapInsert, if_neg hek, List.map_cons, List.mem_cons] at h
      rcases h with h1 | h1
      · exact Or.inr (by rw [List.map_cons, h1]; exact List.mem_cons_self ek _)
      · rcases ih h1 with h2 | h2
        · exact Or.inl h2
        · exact Or.inr (List.mem_cons_of_mem _ h2)

lemma nodup_keys_mapInsert (m : List (String × WordPair)) (k : String) (v : WordPair)
    (h : (m.map Prod.fst).Nodup) : ((mapInsert m k v).map Prod.fst).Nodup := by
  induction m with
  | nil => simp [mapInsert]
  | cons e rest ih =>
    obtain ⟨ek, ev⟩ := e
    simp only [List.map_cons, List.nodup_cons] at h
    by_cases hek : ek = k
    · simp only [mapInsert, if_pos hek, List.map_cons, List.nodup_cons]
      exact h
    · have hrest := ih h.2
      simp only [mapInsert, if_neg hek, List.map_cons, List.nodup_cons]
      refine ⟨?_, hrest⟩
      intro hmem
      rcases keys_mapInsert_subset k ek v rest hmem with h1 | h1
      · exact hek h1
      · exact h.1 h1

lemma snd_original_mapInsert (m : List (String × WordPair)) (k : String) (v : WordPair)
    (hm : ∀ e ∈ m, (e.2).original = e.1) (hv : v.original = k) :
    ∀ e ∈ mapInsert m k v, (e.2).original = e.1 := by
  induction m with
  | nil => simpa [mapInsert] using hv
  | cons e rest ih =>
    obtain ⟨ek, ev⟩ := e
    by_cases hek : ek = k
    · intro e' he'
      simp [mapInsert, hek] at he'
      rcases he' with h1 | h2
      · simp [h1, hv, hek]
      · exact hm e' (by simp [h2])
    · intro e' he'
      simp [mapInsert, hek] at he'
      rcases he' with h1 | h2
      · exact hm e' (by simp [h1])
      · exact ih (fun e he => hm e (by simp [he])) e' h2

lemma entries_invariant (ps : List WordPair) :
    ∀ m, ((m.map Prod.fst).Nodup ∧ ∀ e ∈ m, (e.2).original = e.1) →
      (((ps.foldl (fun m p => mapInsert m p.original p) m).map Prod.fst).Nodup ∧
        ∀ e ∈ ps.foldl (fun m p => mapInsert m p.original p) m, (e.2).original = e.1) := by
  induction ps with
  | nil => intro m hm; simpa using hm
  | cons p rest ih =>
    intro m hm
    have step : (((mapInsert m p.original p).map Prod.fst).Nodup ∧
        ∀ e ∈ mapInsert m p.original p, (e.2).original = e.1) :=
      ⟨nodup_keys_mapInsert m p.original p hm.1,
        snd_original_mapInsert m p.original p hm.2 rfl⟩
    simpa using ih (mapInsert m p.original p) step

/-- C6: the vocabulary summary block rendered from the collected
`TranslationPair`s has pairwise-distinct original-word keys: deduplication by
`new Map` keyed on `item.original` (src/server/routes.ts lines 488-491)
leaves no two entries with the same `original`. -/
theorem c6_vocab_no_duplicate_originals (ps : List WordPair) :
    ((dedupByOriginal ps).map WordPair.original).Nodup := by
  have h := entries_invariant ps [] (by simp)
  have hmap : (dedupByOriginal ps).map WordPair.original =
      (ps.foldl (fun m p => mapInsert m p.original p) []).map Prod.fst := by
    unfold dedupByOriginal
    rw [List.map_map]
    apply List.map_congr_left
    intro e he
    exact h.2 e he
  rw [hmap]
  exact h.1

lemma assocFind_mapInsert_self (k : String) (v : WordPair) :
    ∀ (m : List (String × WordPair)), assocFind (mapInsert m k v) k = some v := by
  intro m
  induction m with
  | nil => simp [mapInsert, assocFind]
  | cons e rest ih =>
    obtain ⟨ek, ev⟩ := e
    by_cases hek : ek = k
    · simp [mapInsert, hek, assocFind]
    · simp [mapInsert, hek, assocFind, ih]

lemma assocFind_mapInsert_ne (k k' : String) (v : WordPair) (hne : k' ≠ k) :
    ∀ (m : List (String × WordPair)), assocFind (mapInsert m k v) k' = assocFind m k' := by
  have hkk : k ≠ k' := fun h => hne h.symm
  intro m
  induction m with
  | nil => simp [mapInsert, assocFind, hkk]
  | cons e rest ih =>
    obtain ⟨ek, ev⟩ := e
    by_cases hek : ek = k
    · subst hek
      simp [mapInsert, assocFind, hkk]
    · by_cases hek' : ek = k'
      · subst hek'
        simp [mapInsert, assocFind, hek, hne]
      · simp [mapInsert, assocFind, hek, hek', ih]

lemma getLast?_cons_orElse (p : WordPair) :
    ∀ (l : List WordPair), (p :: l).getLast? = (l.getLast? <|> some p) := by
  intro l
  induction l generalizing p with
  | nil => rfl
  | cons q l' ih =>
    rw [List.getLast?_cons_cons, ih q]
    cases l'.getLast? <;> rfl

lemma foldl_assocFind (k : String) :
    ∀ (ps : List WordPair) (m : List (String × WordPair)),
      assocFind (ps.foldl (fun m p => mapInsert m p.original p) m) k =
        ((ps.filter (fun q => q.original = k)).getLast? <|> assocFind m k) := by
  intro ps
  induction ps with
  | nil => intro m; simp
  | cons p rest ih =>
    intro m
    by_cases hp : p.original = k
    · have h1 : assocFind (mapInsert m p.original p) k = some p := hp ▸ assocFind_mapInsert_self p.original p m
      calc assocFind ((p :: rest).foldl (fun m p => mapInsert m p.original p) m) k
          = ((rest.filter (fun q => q.original = k)).getLast? <|> some p) := by
            rw [List.foldl_cons, ih, h1]
        _ = ((p :: rest.filter (fun q => q.original = k)).getLast? <|> assocFind m k) := by
            rw [getLast?_cons_orElse]
            cases (rest.filter (fun q => q.original = k)).getLast? <;> rfl
        _ = (((p :: rest).filter (fun q => q.original = k)).getLast? <|> assocFind m k) := by
            rw [List.filter_cons, if_pos (by simp [hp])]
    · have h1 : assocFind (mapInsert m p.original p) k = assocFind m k :=
        assocFind_mapInsert_ne p.original k p (fun h => hp h.symm) m
      rw [List.foldl_cons, ih, h1, List.filter_cons, if_neg (by simp [hp])]

lemma assocFind_of_mem_nodup (k : String) (v : WordPair) :
    ∀ (m : List (String × WordPair)), (m.map Prod.fst).Nodup → (k, v) ∈ m →
      assocFind m k = some v := by
  intro m
  induction m with
  | nil => intro _ h; simp at h
  | cons e rest ih =>
    obtain ⟨ek, ev⟩ := e
    intro hnd hmem
    simp only [List.map_cons, List.nodup_cons] at hnd
    rcases List.mem_cons.1 hmem with h1 | h1
    · rw [Prod.mk.injEq] at h1
      obtain ⟨hk, hv⟩ := h1
      simp [assocFind, ← hk, ← hv]
    · by_cases hek : ek = k
      · exfalso
        apply hnd.1
        rw [hek]
        exact List.mem_map.2 ⟨(k, v), h1, rfl⟩
      · simp only [assocFind, if_neg hek]
        exact ih hnd.2 h1

/-- C10: when the same original word was collected with several transformed
forms, the vocabulary deduplication keeps the transformed form of the
last-produced pair: the entry of `dedupByOriginal ps` whose key is `w` is the
last element of `ps` with original `w` (JavaScript `Map` insertion overwrites
the value of an existing key; src/server/routes.ts lines 489-491). -/
theorem c10_dedup_last_wins (ps : List WordPair) (w : String) (q : WordPair)
    (hq : q ∈ dedupByOriginal ps) (hw : q.original = w) :
    (ps.filter (fun r => r.original = w)).getLast? = some q := by
  unfold dedupByOriginal at hq
  obtain ⟨e, he, hev⟩ := List.mem_map.1 hq
  have hinv := entries_invariant ps [] (by simp)
  have hkey : e.1 = w := by
    have := hinv.2 e he
    rw [hev] at this
    rw [← this, hw]
  have : assocFind (ps.foldl (fun m p => mapInsert m p.original p) []) w = some q := by
    apply assocFind_of_mem_nodup w q _ hinv.1
    have : e = (w, q) := by
      obtain ⟨e1, e2⟩ := e
      simp at hkey hev
      rw [hkey, hev]
    exact this ▸ he
  rw [foldl_assocFind w ps []] at this
  simpa [assocFind] using this

/-- Closed witness for C10 at a concrete duplicate-key input. -/
theorem c10_dedup_last_wins_witness :
    (([⟨"the", "den"⟩, ⟨"the", "det"⟩] : List WordPair).filter
        (fun r => r.original = "the")).getLast? = some ⟨"the", "det"⟩ :=
  c10_dedup_last_wins [⟨"the", "den"⟩, ⟨"the", "det"⟩] "the" ⟨"the", "det"⟩
    (by decide) (by decide)

/-- C1: whenever the request body fails `webpageSchema` validation, the
handler answers 400 and performs zero `axios.get` calls: validation is
decided strictly before any network access (src/server/routes.ts
lines 313-318). -/
theorem c1_validation_before_fetch (b : RawBody) (f : FetchOutcome)
    (h : validateBody b = none) :
    (handleTranslate b f).1.status = 400 ∧ (handleTranslate b f).2 = 0 := by
  simp [handleTranslate, h]

/-- Closed witness for C1: the body with `url = "notaurl"` is rejected with
status 400 and no fetch call. -/
theorem c1_validation_before_fetch_witness :
    (handleTranslate ⟨some "notaurl", some 30, some "swedish"⟩ FetchOutcome.ok).1.status = 400 ∧
    (handleTranslate ⟨some "notaurl", some 30, some "swedish"⟩ FetchOutcome.ok).2 = 0 :=
  c1_validation_before_fetch ⟨some "notaurl", some 30, some "swedish"⟩ FetchOutcome.ok (by decide)

/-- C9: when the upstream fetch fails with HTTP 403, the handler responds
with status 403 and a `testUrls` array of exactly three fallback URLs
(src/server/routes.ts lines 520-530). -/
theorem c9_upstream_403_three_test_urls (b : RawBody) (v : ValidRequest)
    (h : validateBody b = some v) :
    (handleTranslate b (FetchOutcome.httpErr 403)).1.status = 403 ∧
    (handleTranslate b (FetchOutcome.httpErr 403)).1.testUrls.length = 3 := by
  simp [handleTranslate, h, fallbackUrls]

/-- Closed witness for C9 at a concrete valid request body. -/
theorem c9_upstream_403_three_test_urls_witness :
    (handleTranslate ⟨some "https://example.com", some 30, some "swedish"⟩
        (FetchOutcome.httpErr 403)).1.status = 403 ∧
    (handleTranslate ⟨some "https://example.com", some 30, some "swedish"⟩
        (FetchOutcome.httpErr 403)).1.testUrls.length = 3 :=
  c9_upstream_403_three_test_urls ⟨some "https://example.com", some 30, some "swedish"⟩
    ⟨"https://example.com", 30, "swedish"⟩ (by decide)

/-! ## IEEE-754 binary64 model of the percentage target

Both selectors compute `Math.floor(x * (translationPercentage / 100))` in
JavaScript numbers, i.e. IEEE-754 binary64 (src/server/routes.ts lines 113
and 455): the quotient `pct / 100` is rounded to the nearest double (ties
to even, 53 significant bits), the product is rounded again, and
`Math.floor` truncates.  `jsFloorMulDiv100 n pct` reproduces this
computation exactly with integer arithmetic.  All reachable values are
normal and far below overflow (`pct` is an integer in 0..100 and `n` a DOM
node or character count, far below `2 ^ 53`), so neither subnormals,
infinities, nor inexact integer operands need modelling. -/

/-- `floor (log2 n)` (0 at 0), by structural recursion on a fuel bound
(`fuel ≥ n` suffices since `log2 n ≤ n`), so that it evaluates inside the
kernel — `Nat.log2` itself is defined by well-founded recursion and does
not reduce. -/
def natLog2Go : Nat → Nat → Nat
  | 0, _ => 0
  | fuel + 1, n => if 2 ≤ n then natLog2Go fuel (n / 2) + 1 else 0

def natLog2 (n : Nat) : Nat := natLog2Go n n

/-- Rounds `num / den` to the nearest integer, ties to even (`den ≥ 1`). -/
def roundMantissa (num den : Nat) : Nat :=
  if 2 * (num % den) < den then num / den
  else if den < 2 * (num % den) then num / den + 1
  else if num / den % 2 = 0 then num / den else num / den + 1

/-- `floor (log2 (a / b))` for `a, b ≥ 1`, computed with integers: scaling
`a` by `2 ^ (log2 b + 1)` makes the quotient at least 1 without changing
the floor of its base-2 logarithm. -/
def floorLog2 (a b : Nat) : Int :=
  (natLog2 (a * 2 ^ (natLog2 b + 1) / b) : Int) - ((natLog2 b + 1 : Nat) : Int)

/-- Rounds the positive rational `a / b` to binary64, as a pair
`(mantissa, exponent)` with value `mantissa * 2 ^ exponent` and
`2 ^ 52 ≤ mantissa ≤ 2 ^ 53`. -/
def roundRatToFloat (a b : Nat) : Nat × Int :=
  if 0 ≤ (52 : Int) - floorLog2 a b then
    (roundMantissa (a * 2 ^ ((52 : Int) - floorLog2 a b).toNat) b,
      -((52 : Int) - floorLog2 a b))
  else
    (roundMantissa a (b * 2 ^ (-((52 : Int) - floorLog2 a b)).toNat),
      -((52 : Int) - floorLog2 a b))

/-- Rounds the dyadic `m * 2 ^ e` to binary64: a mantissa of at most 53
bits is exact, a wider one is rounded to nearest, ties to even. -/
def roundDyadic (m : Nat) (e : Int) : Nat × Int :=
  if natLog2 m ≤ 52 then (m, e)
  else (roundMantissa m (2 ^ (natLog2 m - 52)), e + ((natLog2 m - 52 : Nat) : Int))

/-- `Math.floor` of the non-negative dyadic `m * 2 ^ e`. -/
def dyadicFloor (m : Nat) (e : Int) : Nat :=
  if 0 ≤ e then m * 2 ^ e.toNat else m / 2 ^ (-e).toNat

/-- `Math.floor (n * (pct / 100))` in IEEE-754 binary64: the target
computation of both selectors (src/server/routes.ts lines 113 and 455). -/
def jsFloorMulDiv100 (n pct : Nat) : Nat :=
  if pct = 0 then 0
  else
    dyadicFloor
      (roundDyadic (n * (roundRatToFloat pct 100).1) (roundRatToFloat pct 100).2).1
      (roundDyadic (n * (roundRatToFloat pct 100).1) (roundRatToFloat pct 100).2).2

lemma jsFloorMulDiv100_zero (n : Nat) : jsFloorMulDiv100 n 0 = 0 := rfl

/-- Spot checks of the binary64 model against JavaScript: `0.57 * 100` and
`0.29 * 100` round below the exact product, `0.7 * 10` hits 7 exactly by
the tie-to-even rule, and exact percentages stay exact. -/
lemma jsFloorMulDiv100_spot_checks :
    jsFloorMulDiv100 100 57 = 56 ∧ jsFloorMulDiv100 100 29 = 28 ∧
    jsFloorMulDiv100 10 70 = 7 ∧ jsFloorMulDiv100 100 100 = 100 ∧
    jsFloorMulDiv100 4 50 = 2 ∧ jsFloorMulDiv100 7 50 = 3 := by
  decide

/-! ## Count-uniform node selection (src/server/routes.ts, lines 455-462)

`nodesToTranslate = Math.floor(textNodes.length * pct/100)` followed by
`while (indices.size < nodesToTranslate) indices.add(Math.floor(Math.random()*textNodes.length))`.
The stream of `Math.random()` draws is modelled as an explicit list of
already-floored indices; `none` means the stream was exhausted before the set
reached the target size (the real loop would simply keep drawing).
The target count is the binary64 computation `jsFloorMulDiv100`. -/

def drawIndices (target : Nat) : List Nat → Finset Nat → Option (Finset Nat)
  | [], acc => if target ≤ acc.card then some acc else none
  | d :: ds, acc => if target ≤ acc.card then some acc else drawIndices target ds (insert d acc)

lemma drawIndices_card (target : Nat) :
    ∀ (draws : List Nat) (acc : Finset Nat) (s : Finset Nat),
      acc.card ≤ target → drawIndices target draws acc = some s → s.card = target := by
  intro draws
  induction draws with
  | nil =>
    intro acc s hle h
    by_cases hc : target ≤ acc.card
    · simp only [drawIndices, if_pos hc] at h
      cases h
      exact Nat.le_antisymm hle hc
    · simp [drawIndices, hc] at h
  | cons d ds ih =>
    intro acc s hle h
    by_cases hc : target ≤ acc.card
    · simp only [drawIndices, if_pos hc] at h
      cases h
      exact Nat.le_antisymm hle hc
    · simp only [drawIndices, if_neg hc] at h
      have hcard : (insert d acc).card ≤ target := by
        calc (insert d acc).card ≤ acc.card + 1 := Finset.card_insert_le d acc
          _ ≤ target := Nat.succ_le_of_lt (Nat.lt_of_not_le hc)
      exact ih (insert d acc) s hcard h

lemma drawIndices_subset (target n : Nat) :
    ∀ (draws : List Nat) (acc : Finset Nat) (s : Finset Nat),
      (∀ d ∈ draws, d < n) → acc ⊆ Finset.range n →
      drawIndices target draws acc = some s → s ⊆ Finset.range n := by
  intro draws
  induction draws with
  | nil =>
    intro acc s _ hsub h
    by_cases hc : target ≤ acc.card
    · simp only [drawIndices, if_pos hc] at h
      cases h
      exact hsub
    · simp [drawIndices, hc] at h
  | cons d ds ih =>
    intro acc s hd hsub h
    by_cases hc : target ≤ acc.card
    · simp only [drawIndices, if_pos hc] at h
      cases h
      exact hsub
    · simp only [drawIndices, if_neg hc] at h
      apply ih (insert d acc) s (fun x hx => hd x (List.mem_cons_of_mem d hx))
      · intro x hx
        rcases Finset.mem_insert.1 hx with h1 | h1
        · exact Finset.mem_range.2 (h1 ▸ hd d (List.mem_cons_self d ds))
        · exact hsub h1
      · exact h

/-! ## Length-weighted node selection (src/server/routes.ts, lines 99-133)

The first revision of the handler accumulates trimmed text lengths of the
candidates in document order:
`targetLength = Math.floor(totalLength * (translationPercentage / 100))`
(binary64, embedded as `jsFloorMulDiv100`), then
`for (const node of nodesToProcess) { if (currentLength >= targetLength)
break; ... currentLength += text.length; }`.  `lwGo target cur lens` returns
the lengths of the selected prefix of candidates. -/

def lwGo (target : Nat) : Nat → List Nat → List Nat
  | _, [] => []
  | cur, l :: ls => if target ≤ cur then [] else l :: lwGo target (cur + l) ls

/-- The whole length-weighted selector: candidate trimmed lengths in document
order in, selected prefix of lengths out (src/server/routes.ts lines 112-133). -/
def lengthWeightedSelect (pct : Nat) (lens : List Nat) : List Nat :=
  lwGo (jsFloorMulDiv100 lens.sum pct) 0 lens

lemma lwGo_lower (target : Nat) :
    ∀ (lens : List Nat) (cur : Nat), target ≤ cur + lens.sum →
      target ≤ cur + (lwGo target cur lens).sum := by
  intro lens
  induction lens with
  | nil => intro cur h; simpa using h
  | cons l ls ih =>
    intro cur h
    by_cases hc : target ≤ cur
    · simp only [lwGo, if_pos hc, List.sum_nil]
      simpa using hc
    · simp only [lwGo, if_neg hc, List.sum_cons]
      have := ih (cur + l) (by simp only [List.sum_cons] at h; omega)
      omega

lemma lwGo_lower_min (target : Nat) :
    ∀ (lens : List Nat) (cur : Nat),
      min target (cur + lens.sum) ≤ cur + (lwGo target cur lens).sum := by
  intro lens
  induction lens with
  | nil =>
    intro cur
    simp only [lwGo, List.sum_nil]
    omega
  | cons l ls ih =>
    intro cur
    by_cases hc : target ≤ cur
    · simp only [lwGo, if_pos hc, List.sum_nil, List.sum_cons]
      omega
    · simp only [lwGo, if_neg hc, List.sum_cons]
      have := ih (cur + l)
      omega

lemma lwGo_upper (target : Nat) :
    ∀ (lens : List Nat) (cur : Nat), cur ≤ target →
      cur + (lwGo target cur lens).sum ≤ target + (lwGo target cur lens).foldr max 0 := by
  intro lens
  induction lens with
  | nil => intro cur h; simpa using h
  | cons l ls ih =>
    intro cur h
    by_cases hc : target ≤ cur
    · simp only [lwGo, if_pos hc, List.sum_nil, List.foldr_nil]
      omega
    · simp only [lwGo, if_neg hc, List.sum_cons, List.foldr_cons]
      by_cases hcl : cur + l ≤ target
      · have := ih (cur + l) hcl
        omega
      · have hrest : lwGo target (cur + l) ls = [] := by
          cases ls with
          | nil => rfl
          | cons a as => simp [lwGo, Nat.le_of_not_le hcl]
        rw [hrest]
        simp only [List.sum_nil, List.foldr_nil]
        omega

lemma lwGo_front (target : Nat) :
    ∀ (lens : List Nat) (cur : Nat), ∃ rest, lwGo target cur lens ++ rest = lens := by
  intro lens
  induction lens with
  | nil => intro cur; exact ⟨[], rfl⟩
  | cons l ls ih =>
    intro cur
    by_cases hc : target ≤ cur
    · exact ⟨l :: ls, by simp [lwGo, hc]⟩
    · obtain ⟨rest, hrest⟩ := ih (cur + l)
      exact ⟨rest, by simp [lwGo, hc, hrest]⟩

/-- C3 counterexample: at candidate lengths `[56, 44]` (total 100) and
`pct = 57` the program computes `targetLength = Math.floor(100 * (57/100))`
as 56 in doubles, selects only the first candidate (56 characters) and
never reaches the exact `floor(100 * 57 / 100) = 57` the claim asserts. -/
theorem c3_counterexample_float_target :
    lengthWeightedSelect 57 [56, 44] = [56] ∧
    ([56, 44] : List Nat).sum * 57 / 100 = 57 ∧
    ¬ (([56, 44] : List Nat).sum * 57 / 100 ≤ (lengthWeightedSelect 57 [56, 44]).sum) := by
  refine ⟨rfl, by decide, by decide⟩

/-- C3 (amended): the length-weighted selector walks the candidates in
document order accumulating trimmed lengths until the accumulator reaches
`targetLength`, where `targetLength` is the binary64 evaluation of
`Math.floor(totalLength * (pct / 100))` — equal to the exact
`floor(totalLength * pct / 100)` except where double rounding interferes
(see the counterexample): the selection is a prefix of the candidates, its
total length reaches the computed target unless the candidates run out, it
exceeds that target by at most the length of one selected candidate, and
with `pct = 0` nothing is selected (src/server/routes.ts lines 112-135). -/
theorem c3_length_weighted_selection (pct : Nat) (lens : List Nat) (hpct : pct ≤ 100) :
    (pct = 0 → lengthWeightedSelect pct lens = []) ∧
    (∃ rest, lengthWeightedSelect pct lens ++ rest = lens) ∧
    min (jsFloorMulDiv100 lens.sum pct) lens.sum ≤ (lengthWeightedSelect pct lens).sum ∧
    (lengthWeightedSelect pct lens).sum ≤
      jsFloorMulDiv100 lens.sum pct + (lengthWeightedSelect pct lens).foldr max 0 := by
  refine ⟨?_, lwGo_front _ lens 0, ?_, ?_⟩
  · intro h0
    subst h0
    unfold lengthWeightedSelect
    rw [jsFloorMulDiv100_zero]
    cases lens with
    | nil => rfl
    | cons l ls => simp [lwGo]
  · have := lwGo_lower_min (jsFloorMulDiv100 lens.sum pct) lens 0
    simpa [lengthWeightedSelect] using this
  · have := lwGo_upper (jsFloorMulDiv100 lens.sum pct) lens 0 (Nat.zero_le _)
    simpa [lengthWeightedSelect] using this

/-- Closed witness for the amended C3 at `pct = 50`, candidate lengths
`[3, 4]`: the binary64 target is `Math.floor(7 * 0.5) = 3`. -/
theorem c3_length_weighted_selection_witness :
    ((50 : Nat) = 0 → lengthWeightedSelect 50 [3, 4] = []) ∧
    (∃ rest, lengthWeightedSelect 50 [3, 4] ++ rest = [3, 4]) ∧
    min (jsFloorMulDiv100 ([3, 4] : List Nat).sum 50) ([3, 4] : List Nat).sum ≤
      (lengthWeightedSelect 50 [3, 4]).sum ∧
    (lengthWeightedSelect 50 [3, 4]).sum ≤
      jsFloorMulDiv100 ([3, 4] : List Nat).sum 50 +
        (lengthWeightedSelect 50 [3, 4]).foldr max 0 :=
  c3_length_weighted_selection 50 [3, 4] (by norm_num)


/-! ## Link rewriting and URL resolution (src/server/routes.ts, lines 418-430)

For every anchor with an `href` the code computes `new URL(href, url).href`,
stores it in `data-original-href` and adds a marker class; a URL-parse
failure leaves the anchor untouched (lines 426-428).  `new URL` follows the
WHATWG URL standard: when `href` itself is an absolute URL the base is
ignored and `href` is parsed and re-serialized.  `parseHttpAbs` and
`serializeUrl` model that parse/serialize round for absolute `http`/`https`
URLs of the shape `scheme://host[/path...]` (no query, fragment, userinfo or
port components and no characters requiring percent-encoding; within that
shape the model matches the standard, in particular a URL with an empty path
re-serializes with path `/`). -/

structure UrlParts where
  scheme : String
  host : String
  path : String
deriving DecidableEq

/-- Strips `pre` from the front of the second list, returning the remainder,
or `none` when it is not a prefix. -/
def stripPreL : List Char → List Char → Option (List Char)
  | [], cs => some cs
  | _ :: _, [] => none
  | p :: ps, c :: cs => if c = p then stripPreL ps cs else none

def schemeSepChars : List Char := [':', '/', '/']

def httpsPre : List Char := ['h', 't', 't', 'p', 's'] ++ schemeSepChars

def httpPre : List Char := ['h', 't', 't', 'p'] ++ schemeSepChars

/-- Splits scheme-stripped input into host (up to the first `/`) and path;
an empty host is a parse failure (WHATWG rejects `http://` with no host). -/
def mkParts (sch : String) (rest : List Char) : Option UrlParts :=
  if rest.takeWhile (fun c => c ≠ '/') = [] then none
  else some ⟨sch, String.mk (rest.takeWhile (fun c => c ≠ '/')),
    String.mk (rest.dropWhile (fun c => c ≠ '/'))⟩

/-- Parses an absolute `http`/`https` URL of the modelled shape. -/
def parseHttpAbs (s : String) : Option UrlParts :=
  match stripPreL httpsPre s.data with
  | some rest => mkParts "https" rest
  | none =>
    match stripPreL httpPre s.data with
    | some rest => mkParts "http" rest
    | none => none

/-- WHATWG serialization of the modelled URL record: an empty path
serializes as `/`. -/
def serializeUrl (u : UrlParts) : String :=
  String.mk (u.scheme.data ++ schemeSepChars ++ u.host.data ++
    (if u.path = "" then ['/'] else u.path.data))

/-- Models `new URL(href, base).href` as computed by the link rewriter
(src/server/routes.ts line 423) for an `href` that is itself an absolute
URL: the base is ignored and `href` is parsed and re-serialized; `none`
models the thrown exception (anchor left untouched, lines 426-428). -/
def resolveHref (base href : String) : Option String :=
  (parseHttpAbs href).map serializeUrl

lemma stripPreL_append (rest : List Char) :
    ∀ (pre : List Char), stripPreL pre (pre ++ rest) = some rest := by
  intro pre
  induction pre with
  | nil => rfl
  | cons p ps ih => simpa [stripPreL] using ih

lemma takeWhile_append_all (p : Char → Bool) :
    ∀ (l₁ l₂ : List Char), (∀ c ∈ l₁, p c = true) →
      List.takeWhile p (l₁ ++ l₂) = l₁ ++ List.takeWhile p l₂ := by
  intro l₁
  induction l₁ with
  | nil => intro l₂ _; rfl
  | cons c cs ih =>
    intro l₂ h
    have hc : p c = true := h c (List.mem_cons_self c cs)
    simp only [List.cons_append, List.takeWhile_cons, hc]
    rw [ih l₂ (fun x hx => h x (List.mem_cons_of_mem c hx))]
    simp

lemma dropWhile_append_all (p : Char → Bool) :
    ∀ (l₁ l₂ : List Char), (∀ c ∈ l₁, p c = true) →
      List.dropWhile p (l₁ ++ l₂) = List.dropWhile p l₂ := by
  intro l₁
  induction l₁ with
  | nil => intro l₂ _; rfl
  | cons c cs ih =>
    intro l₂ h
    have hc : p c = true := h c (List.mem_cons_self c cs)
    simp only [List.cons_append, List.dropWhile_cons, hc]
    exact ih l₂ (fun x hx => h x (List.mem_cons_of_mem c hx))

lemma takeWhile_all_mem (p : Char → Bool) :
    ∀ (l : List Char), ∀ c ∈ List.takeWhile p l, p c = true := by
  intro l
  induction l with
  | nil => intro c h; simp at h
  | cons a as ih =>
    intro c h
    by_cases ha : p a = true
    · simp only [List.takeWhile_cons, ha] at h
      rcases List.mem_cons.1 h with h1 | h1
      · exact h1 ▸ ha
      · exact ih c h1
    · rw [Bool.not_eq_true] at ha
      simp only [List.takeWhile_cons, ha] at h
      simp at h

lemma dropWhile_head_false (p : Char → Bool) :
    ∀ (l tail : List Char) (x : Char), List.dropWhile p l = x :: tail → p x = false := by
  intro l
  induction l with
  | nil => intro tail x h; simp [List.dropWhile] at h
  | cons a as ih =>
    intro tail x h
    by_cases ha : p a = true
    · simp only [List.dropWhile_cons, ha] at h
      exact ih tail x (by simpa using h)
    · rw [Bool.not_eq_true] at ha
      simp only [List.dropWhile_cons, ha] at h
      simp only [Bool.false_eq_true, if_false] at h
      cases h
      exact ha

/-- The record a reparse of a serialized URL produces: the path is
normalized to `/` when empty. -/
def normPath (u : UrlParts) : UrlParts :=
  ⟨u.scheme, u.host, if u.path = "" then "/" else u.path⟩

lemma string_mk_ne_empty (l : List Char) (h : l ≠ []) : String.mk l ≠ "" := by
  intro hcontra
  apply h
  have : (String.mk l).data = ("" : String).data := by rw [hcontra]
  simpa using this

lemma serializeUrl_normPath (u : UrlParts) : serializeUrl (normPath u) = serializeUrl u := by
  unfold serializeUrl normPath
  by_cases hp : u.path = ""
  · have h2 : ("/" : String).data = ['/'] := by decide
    simp +decide [hp, h2]
  · simp only [if_neg hp]

lemma mkParts_parse_serialize (sch : String) (rest : List Char) (parts : UrlParts)
    (hmk : mkParts sch rest = some parts) (hsch : sch = "https" ∨ sch = "http") :
    parseHttpAbs (serializeUrl parts) = some (normPath parts) := by
  unfold mkParts at hmk
  by_cases hh : rest.takeWhile (fun c => c ≠ '/') = []
  · rw [if_pos hh] at hmk
    cases hmk
  · rw [if_neg hh] at hmk
    have hparts : parts = ⟨sch, String.mk (rest.takeWhile (fun c => c ≠ '/')),
        String.mk (rest.dropWhile (fun c => c ≠ '/'))⟩ := by
      cases hmk
      rfl
    subst hparts
    set h := rest.takeWhile (fun c => c ≠ '/') with hdefh
    set p := rest.dropWhile (fun c => c ≠ '/') with hdefp
    have hhall : ∀ c ∈ h, (fun c => decide (c ≠ '/')) c = true := by
      intro c hc
      exact takeWhile_all_mem _ rest c (hdefh ▸ hc)
    have hpshape : p = [] ∨ ∃ tail, p = '/' :: tail := by
      cases hp : p with
      | nil => exact Or.inl rfl
      | cons x tail =>
        have := dropWhile_head_false (fun c => decide (c ≠ '/')) rest tail x (hdefp ▸ hp)
        have hx : x = '/' := by simpa using this
        exact Or.inr ⟨tail, by rw [hx]⟩
    have hpath : ∃ tail₂, (if String.mk p = "" then ['/'] else (String.mk p).data) = '/' :: tail₂ := by
      rcases hpshape with h1 | ⟨tail, h1⟩
      · refine ⟨[], ?_⟩
        rw [h1]
        have : String.mk ([] : List Char) = "" := by decide
        rw [this, if_pos rfl]
      · refine ⟨tail, ?_⟩
        have hne : String.mk p ≠ "" := string_mk_ne_empty p (by rw [h1]; simp)
        rw [if_neg hne, h1]
    obtain ⟨tail₂, htail⟩ := hpath
    have hser : (serializeUrl ⟨sch, String.mk h, String.mk p⟩).data =
        sch.data ++ schemeSepChars ++ (h ++ ('/' :: tail₂)) := by
      unfold serializeUrl
      rw [htail]
      simp [List.append_assoc]
    have hmkagain : ∀ sch₂ : String, mkParts sch₂ (h ++ ('/' :: tail₂)) =
        some ⟨sch₂, String.mk h, String.mk ('/' :: tail₂)⟩ := by
      intro sch₂
      unfold mkParts
      have htw : (h ++ ('/' :: tail₂)).takeWhile (fun c => c ≠ '/') = h := by
        rw [takeWhile_append_all _ h ('/' :: tail₂) hhall]
        simp [List.takeWhile_cons]
      have hdw : (h ++ ('/' :: tail₂)).dropWhile (fun c => c ≠ '/') = '/' :: tail₂ := by
        rw [dropWhile_append_all _ h ('/' :: tail₂) hhall]
        simp [List.dropWhile_cons]
      rw [htw, hdw, if_neg hh]
    have hnorm : normPath ⟨sch, String.mk h, String.mk p⟩ =
        ⟨sch, String.mk h, String.mk ('/' :: tail₂)⟩ := by
      unfold normPath
      simp only [UrlParts.mk.injEq, true_and]
      rcases hpshape with h1 | ⟨tail, h1⟩
      · have h0 : String.mk p = "" := by rw [h1]
        rw [if_pos h0]
        rw [if_pos h0] at htail
        have ht2 : tail₂ = [] := by simpa using htail
        rw [ht2]
      · have hne : String.mk p ≠ "" := string_mk_ne_empty p (by rw [h1]; simp)
        rw [if_neg hne]
        rw [if_neg hne] at htail
        exact congrArg String.mk htail
    rcases hsch with hs | hs
    · subst hs
      unfold parseHttpAbs
      have hq : (serializeUrl ⟨"https", String.mk h, String.mk p⟩).data =
          httpsPre ++ (h ++ ('/' :: tail₂)) := by
        rw [hser]
        have : ("https" : String).data ++ schemeSepChars = httpsPre := by decide
        rw [List.append_assoc, ← this, List.append_assoc]
      rw [hq, stripPreL_append]
      simp only [hmkagain, hnorm]
    · subst hs
      unfold parseHttpAbs
      have hq : (serializeUrl ⟨"http", String.mk h, String.mk p⟩).data =
          httpPre ++ (h ++ ('/' :: tail₂)) := by
        rw [hser]
        have : ("http" : String).data ++ schemeSepChars = httpPre := by decide
        rw [List.append_assoc, ← this, List.append_assoc]
      rw [hq]
      have hfail : stripPreL httpsPre (httpPre ++ (h ++ ('/' :: tail₂))) = none := by
        simp [httpsPre, httpPre, schemeSepChars, stripPreL]
      rw [hfail, stripPreL_append]
      simp only [hmkagain, hnorm]

lemma parseHttpAbs_shape (href : String) (parts : UrlParts)
    (h : parseHttpAbs href = some parts) :
    ∃ sch rest, mkParts sch rest = some parts ∧ (sch = "https" ∨ sch = "http") := by
  unfold parseHttpAbs at h
  cases h1 : stripPreL httpsPre href.data with
  | some rest =>
    rw [h1] at h
    exact ⟨"https", rest, h, Or.inl rfl⟩
  | none =>
    rw [h1] at h
    cases h2 : stripPreL httpPre href.data with
    | some rest =>
      rw [h2] at h
      exact ⟨"http", rest, h, Or.inr rfl⟩
    | none =>
      rw [h2] at h
      cases h

/-- C5 counterexample: the `new URL(href, base).href` call of the link rewriter does
NOT return an already-absolute href unchanged: the WHATWG serializer gives
`https://example.com` the normalized form `https://example.com/`, a
different string. -/
theorem c5_counterexample_absolute_url_changed :
    resolveHref "https://example.com/page" "https://example.com" =
      some "https://example.com/" ∧
    resolveHref "https://example.com/page" "https://example.com" ≠
      some "https://example.com" := by
  constructor
  · decide
  · decide

/-- C5 (amended): resolution of absolute URLs is idempotent as a function:
any output of the resolution step of the link rewriter is a fixed point, i.e.
resolving a resolved URL returns it unchanged — but the FIRST resolution of
an already-absolute URL may return a normalized, different string
(src/server/routes.ts lines 418-430). -/
theorem c5_resolution_idempotent_on_outputs (base basetwo href u : String)
    (h : resolveHref base href = some u) : resolveHref basetwo u = some u := by
  unfold resolveHref at h ⊢
  cases hp : parseHttpAbs href with
  | none => rw [hp] at h; cases h
  | some parts =>
    rw [hp] at h
    simp only [Option.map_some', Option.some.injEq] at h
    obtain ⟨sch, rest, hmk, hsch⟩ := parseHttpAbs_shape href parts hp
    rw [← h, mkParts_parse_serialize sch rest parts hmk hsch]
    exact congrArg some (serializeUrl_normPath parts)

/-- Closed witness for the amended C5: re-resolving the normalized output
`https://example.com/` returns it unchanged. -/
theorem c5_resolution_idempotent_on_outputs_witness :
    resolveHref "" "https://example.com/" = some "https://example.com/" :=
  c5_resolution_idempotent_on_outputs "" "" "https://example.com" "https://example.com/"
    (by decide)

/-! ## Document model and the translate pipeline (src/server/routes.ts, lines 340-515)

A fetched page is modelled by the features of the cheerio tree the handler
touches: the markup blocks appended to `head` and `body`, the anchors, and
the text nodes within the selected tag scope, in document order.  The
appended blocks are represented structurally (`Markup.style` for the style
block of lines 343-415, `Markup.script` for the click-interception script of
lines 433-445, `Markup.vocab pairs` for the vocabulary list of lines
494-506), since no claim depends on their raw text.  The stage order of the handler is: append style, rewrite anchors, append script, select text nodes,
translate the selected ones, append the deduplicated vocabulary block. -/

inductive Markup where
  | style : Markup
  | script : Markup
  | vocab : List WordPair → Markup
deriving DecidableEq

structure Anchor where
  href : Option String
  dataOriginalHref : Option String
  markedLink : Bool
deriving DecidableEq

structure Doc where
  headAppends : List Markup
  bodyAppends : List Markup
  anchors : List Anchor
  textNodes : List String
deriving DecidableEq

/-- Embeds the per-anchor link rewriting (src/server/routes.ts lines
418-430): an anchor with an `href` that resolves gets the absolute URL in
`data-original-href` and the interception marker class; resolution failure
leaves it untouched. -/
def rewriteAnchor (url : String) (a : Anchor) : Anchor :=
  match a.href with
  | none => a
  | some h =>
    match resolveHref url h with
    | some abs => { a with dataOriginalHref := some abs, markedLink := true }
    | none => a

/-- JavaScript `String.prototype.trim`: strip whitespace from both ends
(modelled over `Char.isWhitespace`). -/
def jsTrim (s : String) : String :=
  String.mk ((((s.data.dropWhile Char.isWhitespace).reverse).dropWhile
    Char.isWhitespace).reverse)

/-- The cheerio candidate filter `this.data.trim().length > 0`
(src/server/routes.ts line 449). -/
def nonemptyTrim (s : String) : Bool := decide (0 < (jsTrim s).length)

/-- Embeds the translation loop (src/server/routes.ts lines 468-486): walk
the scoped text nodes; nodes passing the candidate filter are numbered
consecutively (they form the cheerio `textNodes` collection); a candidate
whose index was drawn is replaced by the transformed text of its trimmed
content and its word pairs are collected in document order.  `tf` is the
(random) transformation `translateText`, indexed by candidate number. -/
def substTextNodes (s : Finset Nat) (tf : Nat → String → String × List WordPair) :
    List String → Nat → List String × List WordPair
  | [], _ => ([], [])
  | t :: ts, j =>
    if nonemptyTrim t then
      if j ∈ s then
        if 0 < (jsTrim t).length then
          ((tf j (jsTrim t)).1 :: (substTextNodes s tf ts (j + 1)).1,
            (tf j (jsTrim t)).2 ++ (substTextNodes s tf ts (j + 1)).2)
        else (t :: (substTextNodes s tf ts (j + 1)).1, (substTextNodes s tf ts (j + 1)).2)
      else (t :: (substTextNodes s tf ts (j + 1)).1, (substTextNodes s tf ts (j + 1)).2)
    else (t :: (substTextNodes s tf ts j).1, (substTextNodes s tf ts j).2)

/-- Embeds the whole 200-path of the handler on a fetched document
(src/server/routes.ts lines 340-515): append the style block, rewrite the
anchors, append the interception script, draw
`Math.floor(candidates * (pct / 100))` (binary64, `jsFloorMulDiv100`)
distinct candidate indices, replace the
drawn candidates and collect their word pairs, and append the deduplicated
vocabulary block.  `draws` is the `Math.random()` stream of the selection
loop; `none` models that loop still running when the stream is exhausted. -/
def pipeline (url : String) (pct : Nat) (draws : List Nat)
    (tf : Nat → String → String × List WordPair) (d : Doc) : Option Doc :=
  match drawIndices (jsFloorMulDiv100 ((d.textNodes.filter nonemptyTrim).length) pct)
      draws ∅ with
  | none => none
  | some s =>
    some { headAppends := d.headAppends ++ [Markup.style],
           bodyAppends := (d.bodyAppends ++ [Markup.script]) ++
             [Markup.vocab (dedupByOriginal (substTextNodes s tf d.textNodes 0).2)],
           anchors := d.anchors.map (rewriteAnchor url),
           textNodes := (substTextNodes s tf d.textNodes 0).1 }

/-- C2 counterexample: at 100 qualifying text nodes and `pct = 57` the
program computes `Math.floor(100 * (57 / 100))` as 56 in doubles and the
selection loop stops at 56 distinct indices, not the exact
`floor(100 * 57 / 100) = 57` the claim asserts. -/
theorem c2_counterexample_float_target :
    (drawIndices
        (jsFloorMulDiv100
          (((Doc.mk [] [] [] (List.replicate 100 "a")).textNodes.filter nonemptyTrim).length) 57)
        (List.range 100) ∅).map Finset.card = some 56 ∧
    (((Doc.mk [] [] [] (List.replicate 100 "a")).textNodes.filter
      nonemptyTrim).length) * 57 / 100 = 57 ∧
    (56 : Nat) ≠ 57 := by
  refine ⟨rfl, by decide, by decide⟩

/-- C2 (amended): for every document and percentage the count-uniform
selector draws exactly `target` distinct indices of qualifying (non-empty
after trim, in scope) text nodes, where `target` is the binary64 evaluation
of `Math.floor(candidates * (pct / 100))` — equal to the exact
`floor(candidates * pct / 100)` except where double rounding interferes
(see the counterexample) — and every drawn index is in range: the
cardinality of the selection is deterministic, whatever the random draws,
even though its identity is not (src/server/routes.ts lines 448-462). -/
theorem c2_count_uniform_cardinality (d : Doc) (pct : Nat) (draws : List Nat)
    (s : Finset Nat) (hpct : pct ≤ 100)
    (hdraws : ∀ x ∈ draws, x < (d.textNodes.filter nonemptyTrim).length)
    (hsel : drawIndices (jsFloorMulDiv100 ((d.textNodes.filter nonemptyTrim).length) pct)
      draws ∅ = some s) :
    s.card = jsFloorMulDiv100 ((d.textNodes.filter nonemptyTrim).length) pct ∧
      s ⊆ Finset.range ((d.textNodes.filter nonemptyTrim).length) := by
  constructor
  · exact drawIndices_card _ draws ∅ s (by simp) hsel
  · exact drawIndices_subset _ _ draws ∅ s hdraws (by simp) hsel

/-- Closed witness for the amended C2: four qualifying text nodes,
`pct = 50`, a draw stream `[0, 3, 1]`; the binary64 target is
`Math.floor(4 * 0.5) = 2` and the selection is `{0, 3}` of cardinality 2. -/
theorem c2_count_uniform_cardinality_witness :
    (insert 3 (insert 0 (∅ : Finset Nat))).card =
      jsFloorMulDiv100 (((Doc.mk [] [] [] ["alpha", "beta", "gamma", "delta"]).textNodes.filter
        nonemptyTrim).length) 50 ∧
    insert 3 (insert 0 (∅ : Finset Nat)) ⊆ Finset.range
      ((Doc.mk [] [] [] ["alpha", "beta", "gamma", "delta"]).textNodes.filter
        nonemptyTrim).length :=
  c2_count_uniform_cardinality (Doc.mk [] [] [] ["alpha", "beta", "gamma", "delta"])
    50 [0, 3, 1] (insert 3 (insert 0 ∅)) (by norm_num) (by decide) (by rfl)

lemma drawIndices_zero (draws : List Nat) : drawIndices 0 draws ∅ = some ∅ := by
  cases draws <;> simp [drawIndices]

lemma substTextNodes_empty (tf : Nat → String → String × List WordPair) :
    ∀ (ts : List String) (j : Nat), substTextNodes ∅ tf ts j = (ts, []) := by
  intro ts
  induction ts with
  | nil => intro j; rfl
  | cons t rest ih =>
    intro j
    by_cases ht : nonemptyTrim t = true
    · simp [substTextNodes, ht, ih]
    · rw [Bool.not_eq_true] at ht
      simp [substTextNodes, ht, ih]

/-- C7 counterexample: at `pct = 0` the output does NOT differ from the
input only by the injected style and script blocks: the handler also
appends an (empty) vocabulary block to the body and rewrites every
resolvable anchor, as this one-anchor document shows. -/
theorem c7_counterexample_more_than_style_script :
    pipeline "https://a.com/" 0 [] (fun _ s => (s, []))
        (Doc.mk [] [] [Anchor.mk (some "https://a.com/x") none false] ["hi"]) ≠
      some { Doc.mk [] [] [Anchor.mk (some "https://a.com/x") none false] ["hi"] with
        headAppends := [Markup.style],
        bodyAppends := [Markup.script] } := by
  decide

/-- C7 (amended): at `pct = 0` no substitution is performed — the text
nodes are returned verbatim — and the serialized output differs from the
input exactly by the injected style block, the injected script block, the
appended empty vocabulary block, and the anchor attributes set by the link rewriter
(src/server/routes.ts lines 418-445 and 488-506). -/
theorem c7_pct_zero_frame (url : String) (draws : List Nat)
    (tf : Nat → String → String × List WordPair) (d : Doc) :
    pipeline url 0 draws tf d =
      some { headAppends := d.headAppends ++ [Markup.style],
             bodyAppends := d.bodyAppends ++ [Markup.script, Markup.vocab []],
             anchors := d.anchors.map (rewriteAnchor url),
             textNodes := d.textNodes } := by
  unfold pipeline
  rw [jsFloorMulDiv100_zero]
  rw [drawIndices_zero]
  simp [substTextNodes_empty, dedupByOriginal]

/-! ## Substitution markup and the title attribute (src/server/routes.ts,
lines 286-296; src/unnamed/part_002, lines 393-397)

Every transformation strategy wraps a substitution in an element whose
`title` attribute is built by raw template interpolation:
`<span class="swedish-text" title="Original: ${word}">${translated}</span>`
for the word-level strategies, and
`<i class="swedish-text" title="Original: ${text}">${text} (på svenska)</i>`
for the segment-level mock strategy of src/unnamed/part_002 lines 393-397.
No HTML-attribute escaping is applied anywhere.  `escapeAttr` is the
standard HTML attribute escaping the spec refers to, and
`extractTitleAttr` recovers the `title` attribute value the way an HTML
parser does: the text between the first `title="` and the next `"`. -/

/-- JavaScript regex `\w`: ASCII alphanumeric or underscore. -/
def wordChar (c : Char) : Bool := c.isAlphanum || c = '_'

/-- Concatenation of the images of the elements of a list (`Array.flatMap`). -/
def listJoinMap (f : α → List β) : List α → List β
  | [] => []
  | a :: l => f a ++ listJoinMap f l

def quoteChar : Char := Char.ofNat 34

/-- Standard HTML attribute escaping of one character. -/
def escAttrChar (c : Char) : List Char :=
  if c = '&' then "&amp;".data
  else if c = '<' then "&lt;".data
  else if c = '>' then "&gt;".data
  else if c = quoteChar then "&quot;".data
  else [c]

/-- Standard HTML attribute escaping of a string. -/
def escapeAttr (s : String) : String := String.mk (listJoinMap escAttrChar s.data)

def spanOpen : String := "<span class=\"swedish-text\" title=\"Original: "

def spanMid : String := "\">"

def spanClose : String := "</span>"

/-- The span emitted for a substituted word (src/server/routes.ts line 293,
also line 34 of the first revision and src/unnamed/part_002 line 139): the
original word is interpolated raw into the `title` attribute. -/
def wrapSpan (orig tr : String) : String :=
  String.mk (spanOpen.data ++ orig.data ++ spanMid.data ++ tr.data ++ spanClose.data)

def italOpen : String := "<i class=\"swedish-text\" title=\"Original: "

def italClose : String := " (på svenska)</i>"

/-- The element emitted by the segment-level mock strategy
(src/unnamed/part_002 lines 393-397): the whole trimmed segment text is
interpolated raw into the `title` attribute. -/
def wrapItalic (text : String) : String :=
  String.mk (italOpen.data ++ text.data ++ spanMid.data ++ text.data ++ italClose.data)

def titlePat : List Char := ['t', 'i', 't', 'l', 'e', '=', Char.ofNat 34]

def startsWithL : List Char → List Char → Bool
  | [], _ => true
  | _ :: _, [] => false
  | p :: ps, c :: cs => (c = p) && startsWithL ps cs

/-- Position of the first `title="` occurrence: returns what follows it. -/
def findTitle : List Char → Option (List Char)
  | [] => none
  | c :: cs => if startsWithL titlePat (c :: cs) then some (List.drop 7 (c :: cs)) else findTitle cs

/-- The `title` attribute value as an HTML parser reads it: the text between
the first `title="` and the next `"`. -/
def extractTitleAttr (s : String) : Option String :=
  (findTitle s.data).map (fun cs => String.mk (cs.takeWhile (fun c => c ≠ quoteChar)))

/-- C4 counterexample: a substituted segment is NOT carried in
HTML-attribute-escaped form: for the segment `say "hej"` the segment-level
strategy emits a `title` attribute that an HTML parser terminates at the
interior quote, so the attribute value is the truncated `Original: say `
rather than the escaped original. -/
theorem c4_counterexample_title_not_escaped :
    extractTitleAttr (wrapItalic "say \"hej\"") = some "Original: say " ∧
    extractTitleAttr (wrapItalic "say \"hej\"") ≠
      some ("Original: " ++ escapeAttr "say \"hej\"") := by
  constructor
  · decide
  · decide

lemma listJoinMap_escAttr_id : ∀ (d : List Char), (∀ c ∈ d, wordChar c = true) →
    listJoinMap escAttrChar d = d := by
  intro d
  induction d with
  | nil => intro _; rfl
  | cons c cs ih =>
    intro h
    have hc := h c (List.mem_cons_self c cs)
    have h1 : escAttrChar c = [c] := by
      unfold escAttrChar
      have hamp : c ≠ '&' := by intro he; rw [he] at hc; exact absurd hc (by decide)
      have hlt : c ≠ '<' := by intro he; rw [he] at hc; exact absurd hc (by decide)
      have hgt : c ≠ '>' := by intro he; rw [he] at hc; exact absurd hc (by decide)
      have hqt : c ≠ quoteChar := by intro he; rw [he] at hc; exact absurd hc (by decide)
      rw [if_neg hamp, if_neg hlt, if_neg hgt, if_neg hqt]
    simp [listJoinMap, h1, ih (fun x hx => h x (List.mem_cons_of_mem c hx))]

lemma findTitle_spanOpen (rest : List Char) :
    findTitle (spanOpen.data ++ rest) = some ("Original: ".data ++ rest) := rfl

/-- C4 (amended): for the word-level strategies the substituted words are
regex `\w+` tokens; for any such word the `title` attribute of the emitted
span carries `Original: ` followed by the word verbatim, which coincides
with its HTML-attribute-escaped form because word characters need no
escaping — the code itself never escapes, so the segment-level strategy
(which can interpolate quotes) violates the claim, per the counterexample. -/
theorem c4_word_level_title_recoverable (orig tr : String)
    (h : ∀ c ∈ orig.data, wordChar c = true) :
    escapeAttr orig = orig ∧
    extractTitleAttr (wrapSpan orig tr) = some ("Original: " ++ orig) := by
  have horig : ∀ c ∈ orig.data, (fun c => decide (c ≠ quoteChar)) c = true := by
    intro c hc
    have hw := h c hc
    simp only [decide_eq_true_eq]
    intro he
    rw [he] at hw
    exact absurd hw (by decide)
  constructor
  · unfold escapeAttr
    rw [listJoinMap_escAttr_id orig.data h]
  · unfold extractTitleAttr wrapSpan
    rw [show (String.mk (spanOpen.data ++ orig.data ++ spanMid.data ++ tr.data ++
        spanClose.data)).data =
        spanOpen.data ++ (orig.data ++ (spanMid.data ++ (tr.data ++ spanClose.data))) from by
      simp [List.append_assoc]]
    rw [findTitle_spanOpen]
    simp only [Option.map_some', Option.some.injEq]
    rw [takeWhile_append_all _ ("Original: ".data) _ (by decide)]
    rw [takeWhile_append_all _ orig.data _ horig]
    rw [show spanMid.data ++ (tr.data ++ spanClose.data) =
        quoteChar :: ('>' :: (tr.data ++ spanClose.data)) from by
      rw [show spanMid.data = [quoteChar, '>'] from by decide]
      simp]
    rw [List.takeWhile_cons]
    simp only [show decide (quoteChar ≠ quoteChar) = false from by decide,
      Bool.false_eq_true, if_false, List.append_nil]
    obtain ⟨d⟩ := orig
    rfl

/-- Closed witness for the amended C4 at the word `hello` translated `hej`. -/
theorem c4_word_level_title_recoverable_witness :
    escapeAttr "hello" = "hello" ∧
    extractTitleAttr (wrapSpan "hello" "hej") = some ("Original: " ++ "hello") :=
  c4_word_level_title_recoverable "hello" "hej" (by decide)

/-! ## The dictionary-lookup strategy (src/unnamed/part_002, lines 106-144)

`translateText` in that revision: collect the words of the segment with
`text.match(/\b\w+\b/g)`, deduplicate preserving first occurrence with
`new Set`, keep the unique words that are in the dictionary (case-insensitive
key) AND pass the coin flip, build the per-call substitution map and push one
word pair per kept word, then for each kept word run one global
word-boundary replace over the (progressively transformed) text.

A segment string is represented by its decomposition into maximal runs of
`\w` characters (`Tok.word`) and the text between them (`Tok.gap`); this is
exactly the granularity at which `\b\w+\b` matching and replacement operate:
a global `\b w \b` replace on a string replaces precisely the word tokens
equal to `w`, and because the injected span markup starts with `<` and ends
with `>` a replacement never merges with neighbouring tokens.  The
`Math.random() < 0.5` coin of the filter is modelled by the predicate
`incl` (each unique word flips at most one coin, so a predicate on words
covers every possible draw sequence). -/

inductive Tok where
  | word : String → Tok
  | gap : String → Tok
deriving DecidableEq

/-- Groups a character list into maximal `\w` runs and gap runs; `k` is the
kind (word or not) and `acc` the reversed current run. -/
def flushTok (k : Bool) (acc : List Char) (rest : List Tok) : List Tok :=
  match acc with
  | [] => rest
  | _ => (if k then Tok.word (String.mk acc.reverse) else Tok.gap (String.mk acc.reverse)) :: rest

def tokGo (k : Bool) (acc : List Char) : List Char → List Tok
  | [] => flushTok k acc []
  | c :: cs =>
    if wordChar c = k then tokGo k (c :: acc) cs
    else flushTok k acc (tokGo (wordChar c) [c] cs)

/-- Tokenizes a string into word and gap tokens. -/
def tokenize (s : String) : List Tok :=
  match s.data with
  | [] => []
  | c :: cs => tokGo (wordChar c) [c] cs

/-- The word occurrences of a segment: `text.match(/\b\w+\b/g) || []`. -/
def wordsOf (ts : List Tok) : List String :=
  ts.filterMap (fun t => match t with | Tok.word w => some w | Tok.gap _ => none)

/-- `Array.from(new Set(words))`: deduplicate keeping first occurrences. -/
def firstDedup : List String → List String
  | [] => []
  | x :: xs => x :: (firstDedup xs).filter (fun y => y ≠ x)

/-- JavaScript `toLowerCase` (ASCII model). -/
def jsToLower (s : String) : String := String.mk (s.data.map Char.toLower)

/-- `dictionary.get(word.toLowerCase())` on the read-only source-to-target
mapping (src/unnamed/part_002 lines 119 and 127); `isSome` is
`dictionary.has`. -/
def dictFind (dict : List (String × String)) (w : String) : Option String :=
  (dict.find? (fun e => e.1 = jsToLower w)).map (fun e => e.2)

/-- `uniqueWords.filter(word => dictionary.has(word.toLowerCase()) &&
Math.random() < 0.5)` (src/unnamed/part_002 lines 118-120). -/
def includedWords (dict : List (String × String)) (incl : String → Bool)
    (ts : List Tok) : List String :=
  (firstDedup (wordsOf ts)).filter (fun w => (dictFind dict w).isSome && incl w)

/-- The per-call substitution map together with the emitted pairs, in
insertion order (src/unnamed/part_002 lines 123-132): one entry per kept
word whose lookup succeeds. -/
def translationsOf (dict : List (String × String)) (incl : String → Bool)
    (ts : List Tok) : List (String × String) :=
  (includedWords dict incl ts).filterMap
    (fun w => (dictFind dict w).map (fun tr => (w, tr)))

/-- The markup injected for one substituted word, as a token list. -/
def spanToks (orig tr : String) : List Tok := tokenize (wrapSpan orig tr)

/-- The image of one word under a global `\b w \b` replace. -/
def replTok (w : String) (repl : List Tok) (t : Tok) : List Tok :=
  match t with
  | Tok.word x => if x = w then repl else [t]
  | Tok.gap _ => [t]

/-- One global word-boundary find/replace pass
(`translatedText.replace(new RegExp(..., 'g'), span)`,
src/unnamed/part_002 lines 136-141). -/
def replacePass (w : String) (repl : List Tok) (ts : List Tok) : List Tok :=
  listJoinMap (replTok w repl) ts

/-- Embeds the whole dictionary-lookup `translateText`
(src/unnamed/part_002 lines 106-144): returns the emitted word pairs and
the transformed segment. -/
def translateTextDict (dict : List (String × String)) (incl : String → Bool)
    (ts : List Tok) : List WordPair × List Tok :=
  ((translationsOf dict incl ts).map (fun p => WordPair.mk p.1 p.2),
    (translationsOf dict incl ts).foldl
      (fun acc p => replacePass p.1 (spanToks p.1 p.2) acc) ts)

/-- The image of one input token under the full sequence of replace passes:
the passes are position-independent, so the whole transformation is the
token-wise concatenation of this function. -/
def applyAll (trs : List (String × String)) (t : Tok) : List Tok :=
  trs.foldl (fun cur p => replacePass p.1 (spanToks p.1 p.2) cur) [t]

lemma listJoinMap_append (f : α → List β) :
    ∀ (l₁ l₂ : List α), listJoinMap f (l₁ ++ l₂) = listJoinMap f l₁ ++ listJoinMap f l₂ := by
  intro l₁
  induction l₁ with
  | nil => intro l₂; rfl
  | cons a l ih => intro l₂; simp [listJoinMap, ih, List.append_assoc]

lemma listJoinMap_id : ∀ (l : List α), listJoinMap (fun a => [a]) l = l := by
  intro l
  induction l with
  | nil => rfl
  | cons a l ih => simp [listJoinMap, ih]

lemma listJoinMap_assoc (f : α → List β) (g : β → List γ) :
    ∀ (l : List α), listJoinMap g (listJoinMap f l) =
      listJoinMap (fun a => listJoinMap g (f a)) l := by
  intro l
  induction l with
  | nil => rfl
  | cons a l ih => simp [listJoinMap, listJoinMap_append, ih]

lemma listJoinMap_congr (f g : α → List β) :
    ∀ (l : List α), (∀ a ∈ l, f a = g a) → listJoinMap f l = listJoinMap g l := by
  intro l
  induction l with
  | nil => intro _; rfl
  | cons a l ih =>
    intro h
    simp only [listJoinMap, h a (List.mem_cons_self a l),
      ih (fun x hx => h x (List.mem_cons_of_mem a hx))]

lemma foldl_passes_flat (trs : List (String × String)) :
    ∀ (ts : List Tok),
      trs.foldl (fun acc p => replacePass p.1 (spanToks p.1 p.2) acc) ts =
        listJoinMap (applyAll trs) ts := by
  induction trs with
  | nil =>
    intro ts
    simp only [List.foldl_nil]
    rw [show applyAll [] = fun t => [t] from rfl]
    exact (listJoinMap_id ts).symm
  | cons p rest ih =>
    intro ts
    rw [List.foldl_cons]
    rw [ih (replacePass p.1 (spanToks p.1 p.2) ts)]
    unfold replacePass
    rw [listJoinMap_assoc]
    apply listJoinMap_congr
    intro t _
    have h1 : applyAll (p :: rest) t =
        rest.foldl (fun cur q => replacePass q.1 (spanToks q.1 q.2) cur)
          (replacePass p.1 (spanToks p.1 p.2) [t]) := rfl
    rw [h1, ih (replacePass p.1 (spanToks p.1 p.2) [t])]
    have h2 : replacePass p.1 (spanToks p.1 p.2) [t] = replTok p.1 (spanToks p.1 p.2) t := by
      simp [replacePass, listJoinMap]
    rw [h2]

lemma firstDedup_nodup : ∀ (l : List String), (firstDedup l).Nodup := by
  intro l
  induction l with
  | nil => exact List.nodup_nil
  | cons x xs ih =>
    simp only [firstDedup, List.nodup_cons]
    constructor
    · intro hmem
      have := List.of_mem_filter hmem
      simp at this
    · exact List.Nodup.filter _ ih

lemma filterMap_dict_keys (dict : List (String × String)) :
    ∀ (l : List String), (∀ w ∈ l, (dictFind dict w).isSome = true) →
      (l.filterMap (fun w => (dictFind dict w).map (fun tr => (w, tr)))).map Prod.fst = l := by
  intro l
  induction l with
  | nil => intro _; rfl
  | cons w ws ih =>
    intro h
    have hw := h w (List.mem_cons_self w ws)
    cases hd : dictFind dict w with
    | none => rw [hd] at hw; simp at hw
    | some tr =>
      rw [List.filterMap_cons, hd]
      simp only [Option.map_some', List.map_cons]
      rw [ih (fun x hx => h x (List.mem_cons_of_mem w hx))]

/-- C8: the dictionary-lookup strategy (src/unnamed/part_002 lines 106-144)
(a) includes a unique word iff it is in the mapping and passes the coin,
(b) emits at most one pair per unique word (pairwise-distinct originals),
and (c) the transformed segment is the token-wise image of one
position-independent function, i.e. one word-boundary pass per included
word, so every occurrence of an included word in the segment receives the
same transformed form. -/
theorem c8_dictionary_lookup_strategy (dict : List (String × String))
    (incl : String → Bool) (ts : List Tok) :
    (∀ w, w ∈ includedWords dict incl ts ↔
      w ∈ firstDedup (wordsOf ts) ∧ (dictFind dict w).isSome = true ∧ incl w = true) ∧
    ((translateTextDict dict incl ts).1.map WordPair.original).Nodup ∧
    (translateTextDict dict incl ts).2 =
      listJoinMap (applyAll (translationsOf dict incl ts)) ts := by
  refine ⟨?_, ?_, ?_⟩
  · intro w
    unfold includedWords
    rw [List.mem_filter]
    simp [Bool.and_eq_true]
  · have hkeys : ((translateTextDict dict incl ts).1.map WordPair.original) =
        (translationsOf dict incl ts).map Prod.fst := by
      unfold translateTextDict
      rw [List.map_map]
      rfl
    have hall : ∀ w ∈ includedWords dict incl ts, (dictFind dict w).isSome = true := by
      intro w hw
      unfold includedWords at hw
      have h2 := List.of_mem_filter hw
      simp only [Bool.and_eq_true] at h2
      exact h2.1
    rw [hkeys]
    unfold translationsOf
    rw [filterMap_dict_keys dict (includedWords dict incl ts) hall]
    exact List.Nodup.filter _ (firstDedup_nodup (wordsOf ts))
  · unfold translateTextDict
    exact foldl_passes_flat (translationsOf dict incl ts) ts
